import Mathlib

/-!
Verification of the Hurwitz manifold component of geotorch (`geotorch/hurwitz.py`)
against its natural-language specification.

The embedding is shallow: torch tensors of shape `tensorial_size + (n, n)` become
a batch shape (a `List ℕ`) together with a list of real `n × n` matrices, floats
become real numbers, and fallible Python code returns `Except`.  The sub-manifolds
`PSD`, `Skew` and the `ProductManifold` plumbing, as well as the external convex
solver, are not part of the sources; following the specification they are modelled
by their contracts (positive semidefiniteness / skew-symmetry of the produced
factors, positional dispatch, and an abstract solver-outcome function).
-/

open scoped ComplexOrder
open scoped Matrix

namespace Geotorch

/-- Square real matrices of size `n`, the entries of a torch tensor batch element. -/
abbrev Mat (n : ℕ) := Matrix (Fin n) (Fin n) ℝ

/-- The error taxonomy of the component: `VectorError`, `NonSquareError`
(raised by `parse_size`), plain `ValueError` (non-positive `alpha`, solver
failure) and `InManifoldError` (membership pre-check failure). -/
inductive GeoError where
  | vectorError
  | nonSquareError
  | valueError
  | inManifoldError
deriving DecidableEq

/-- The immutable configuration of a `Hurwitz` instance: the matrix dimension
`n`, the leading batch shape `tensorial_size` and the stability margin `alpha`. -/
structure HurwitzInst where
  n : ℕ
  tensorial_size : List ℕ
  alpha : ℝ

/-- `Hurwitz.parse_size` (hurwitz.py lines 44-52): reject shapes with fewer than
two dimensions (`VectorError`), reject unequal trailing dimensions
(`NonSquareError`), otherwise return the matrix dimension and the batch shape. -/
def parse_size (size : List ℕ) : Except GeoError (ℕ × List ℕ) :=
  if size.length < 2 then Except.error GeoError.vectorError
  else
    let n := size.getD (size.length - 2) 0
    let k := size.getD (size.length - 1) 0
    if n ≠ k then Except.error GeoError.nonSquareError
    else Except.ok (n, size.take (size.length - 2))

/-- `Hurwitz.__init__` (hurwitz.py lines 20-42): parse the size (propagating
`VectorError` / `NonSquareError`), then reject `alpha ≤ 0` with a `ValueError`,
otherwise build the instance configuration. -/
noncomputable def hurwitzInit (size : List ℕ) (alpha : ℝ) : Except GeoError HurwitzInst :=
  match parse_size size with
  | Except.error e => Except.error e
  | Except.ok nts =>
      if alpha ≤ 0 then Except.error GeoError.valueError
      else Except.ok ⟨nts.1, nts.2, alpha⟩

/-- `Hurwitz.submersion` (hurwitz.py lines 60-61):
`P @ (-0.5 * Q + S) - alpha * In`, per batch element. -/
def submersion (H : HurwitzInst) (Q P S : Mat H.n) : Mat H.n :=
  P * ((-0.5 : ℝ) • Q + S) - H.alpha • (1 : Mat H.n)

/-- Complexification of a real matrix, entrywise. -/
def cmap {m : ℕ} (A : Matrix (Fin m) (Fin m) ℝ) : Matrix (Fin m) (Fin m) ℂ :=
  A.map (fun x => (x : ℂ))

/-- `μ` is an eigenvalue of the real matrix `A`; as `torch.linalg.eigvals` does,
eigenvalues are taken over `ℂ` (of the complexification of `A`). -/
def isEigenvalue {m : ℕ} (A : Matrix (Fin m) (Fin m) ℝ) (μ : ℂ) : Prop :=
  ∃ v : Fin m → ℂ, v ≠ 0 ∧ cmap A *ᵥ v = μ • v

/-- A torch tensor of shape `batch + (m, m)`: the batch shape together with the
list of its square matrix batch elements. -/
structure BTensor where
  batch : List ℕ
  m : ℕ
  mats : List (Matrix (Fin m) (Fin m) ℝ)

/-- `Hurwitz.in_manifold_eigen` (hurwitz.py lines 100-109): if the batch shape
(all dimensions except the last two) differs from `tensorial_size`, return
`False`; otherwise every eigenvalue of every batch element must have real part
`≤ -alpha + eps`.  The Python default for `eps` is `1e-6`. -/
def in_manifold_eigen (H : HurwitzInst) (A : BTensor) (eps : ℝ) : Prop :=
  if A.batch ≠ H.tensorial_size then False
  else ∀ M ∈ A.mats, ∀ μ : ℂ, isEigenvalue M μ → μ.re ≤ -H.alpha + eps

/-- Pointwise zip of three lists, used to apply a per-batch-element operation
to three batched tensors of equal shape. -/
def zipWith3 {α β γ δ : Type} (f : α → β → γ → δ) : List α → List β → List γ → List δ
  | a :: as, b :: bs, c :: cs => f a b c :: zipWith3 f as bs cs
  | _, _, _ => []

/-- Modelled from the spec: `ProductManifold.forward` (geotorch/product.py, not
under `src/`) — positional dispatch: element `i` of the input sequence is passed
to sub-manifold `i`'s forward, and the results are returned in order. -/
def productForward3 {n : ℕ} (f1 f2 f3 : Mat n → Mat n) (X1 X2 X3 : Mat n) :
    Mat n × Mat n × Mat n :=
  (f1 X1, f2 X2, f3 X3)

/-- Modelled from the spec: `ProductManifold.right_inverse` (geotorch/product.py,
not under `src/`) — positional dispatch of each sub-manifold's `right_inverse`. -/
def productRightInverse3 {n : ℕ} (r1 r2 r3 : Mat n → Mat n) (Q P S : Mat n) :
    Mat n × Mat n × Mat n :=
  (r1 Q, r2 P, r3 S)

/-- `Hurwitz.forward` (hurwitz.py lines 63-65), one batch element: run the
`ProductManifold` forward on the three unconstrained inputs (the sub-manifold
forwards `f1`, `f2`, `f3` stand for `PSD.forward`, `PSD.forward`,
`Skew.forward`, which are not under `src/`), then apply `submersion`. -/
def forward (H : HurwitzInst) (f1 f2 f3 : Mat H.n → Mat H.n) (X1 X2 X3 : Mat H.n) :
    Mat H.n :=
  let QPS := productForward3 f1 f2 f3 X1 X2 X3
  submersion H QPS.1 QPS.2.1 QPS.2.2

/-- `Hurwitz.forward` on a whole batch: the per-element map applied across the
batch, producing a tensor of batch shape `tensorial_size`. -/
def forwardB (H : HurwitzInst) (f1 f2 f3 : Mat H.n → Mat H.n)
    (X1s X2s X3s : List (Mat H.n)) : BTensor :=
  ⟨H.tensorial_size, H.n, zipWith3 (forward H f1 f2 f3) X1s X2s X3s⟩

/-- `Hurwitz.sample` (hurwitz.py lines 111-123), one batch element, as a
function of the three drawn noise matrices: `P = Xp Xpᵀ`, `Q = Xq Xqᵀ`,
`S = Xs - Xsᵀ`, result `P @ (-0.5 Q + S) - alpha In`. -/
def sampleMat (H : HurwitzInst) (Xp Xq Xs : Mat H.n) : Mat H.n :=
  let P := Xp * Xpᵀ
  let Q := Xq * Xqᵀ
  let S := Xs - Xsᵀ
  P * ((-0.5 : ℝ) • Q + S) - H.alpha • (1 : Mat H.n)

/-- `Hurwitz.sample` on a whole batch of drawn noise matrices. -/
def sampleB (H : HurwitzInst) (Xps Xqs Xss : List (Mat H.n)) : BTensor :=
  ⟨H.tensorial_size, H.n, zipWith3 (sampleMat H) Xps Xqs Xss⟩

/-- `Q` as recovered by `Hurwitz.submersion_inv` (hurwitz.py lines 74-76 and 90):
`Q = -(Aᵀ P + P A + 2 alpha P)`. -/
def Qrec (H : HurwitzInst) (A P : Mat H.n) : Mat H.n :=
  -(Aᵀ * P + P * A + (2 * H.alpha) • P)

/-- `S` as recovered by `Hurwitz.submersion_inv` (hurwitz.py line 92):
`S = P A + 0.5 Q + alpha P` with `Q` the (negated) recovered matrix. -/
def Srec (H : HurwitzInst) (A P : Mat H.n) : Mat H.n :=
  P * A + (0.5 : ℝ) • Qrec H A P + H.alpha • P

/-- The semidefinite program handed to the external solver: an objective value
to minimize and the feasible set. -/
structure SDPProblem (n : ℕ) where
  minimizeObjective : ℝ
  feasibleSet : Mat n → Prop

/-- What the external cvxpy solve reports back: the problem status string and
the value of the variable `P`. -/
structure SolverOutcome (n : ℕ) where
  status : String
  P : Mat n

/-- The semidefinite feasibility program built by `Hurwitz.submersion_inv`
(hurwitz.py lines 73-80): objective `Minimize(0)`; variable `P` symmetric PSD
(`Variable(..., PSD=True)`) with `Aᵀ P + P A + 2 alpha P ≼ -epsilon I` and
`P - epsilon I ≽ 0`. -/
def hurwitzSDP (H : HurwitzInst) (A : Mat H.n) (epsilon : ℝ) : SDPProblem H.n where
  minimizeObjective := 0
  feasibleSet := fun P =>
    Pᵀ = P ∧ P.PosSemidef ∧
    (-(epsilon • (1 : Mat H.n)) - (Aᵀ * P + P * A + (2 * H.alpha) • P)).PosSemidef ∧
    Matrix.PosSemidef (P - epsilon • (1 : Mat H.n))

/-- `Hurwitz.submersion_inv` (hurwitz.py lines 67-93).  `slv` is the external
convex solver capability, selected by the solver name string.  The Python
defaults are `check_in_manifold=True`, `epsilon=1e-8`, `solver="MOSEK"`.
If the membership pre-check fails, raise `InManifoldError`; if the solver
reports the problem infeasible or unbounded, raise `ValueError`; otherwise
return `(Q, P⁻¹, S)` built from the solved `P`. -/
noncomputable def submersion_inv (H : HurwitzInst)
    (slv : String → SDPProblem H.n → SolverOutcome H.n) (A : Mat H.n)
    (check_in_manifold : Bool) (epsilon : ℝ) (solver : String) :
    Except GeoError (Mat H.n × Mat H.n × Mat H.n) :=
  letI : Decidable (check_in_manifold = true ∧ ¬ in_manifold_eigen H ⟨[], H.n, [A]⟩ epsilon) :=
    Classical.propDecidable _
  if check_in_manifold = true ∧ ¬ in_manifold_eigen H ⟨[], H.n, [A]⟩ epsilon then
    Except.error GeoError.inManifoldError
  else
    let out := slv solver (hurwitzSDP H A epsilon)
    if out.status = "infeasible" ∨ out.status = "unbounded" then
      Except.error GeoError.valueError
    else
      Except.ok (Qrec H A out.P, (out.P)⁻¹, Srec H A out.P)

/-- `Hurwitz.right_inverse` (hurwitz.py lines 95-98): call `submersion_inv`
with only `(A, check_in_manifold)` — so with its defaults `epsilon=1e-8` and
`solver="MOSEK"` — then dispatch the triple to `ProductManifold.right_inverse`
(the sub-manifold right inverses `r1`, `r2`, `r3` are not under `src/`). -/
noncomputable def right_inverse (H : HurwitzInst)
    (slv : String → SDPProblem H.n → SolverOutcome H.n)
    (r1 r2 r3 : Mat H.n → Mat H.n) (A : Mat H.n) (check_in_manifold : Bool) :
    Except GeoError (Mat H.n × Mat H.n × Mat H.n) :=
  match submersion_inv H slv A check_in_manifold (1e-8) "MOSEK" with
  | Except.error e => Except.error e
  | Except.ok QPS => Except.ok (productRightInverse3 r1 r2 r3 QPS.1 QPS.2.1 QPS.2.2)

/-! ### Complexification lemmas -/

lemma cmap_mul {m : ℕ} (A B : Matrix (Fin m) (Fin m) ℝ) :
    cmap (A * B) = cmap A * cmap B := by
  ext i j
  simp only [cmap, Matrix.map_apply, Matrix.mul_apply]
  push_cast
  rfl

lemma cmap_add {m : ℕ} (A B : Matrix (Fin m) (Fin m) ℝ) :
    cmap (A + B) = cmap A + cmap B := by
  ext i j
  simp [cmap, Matrix.add_apply]

lemma cmap_sub {m : ℕ} (A B : Matrix (Fin m) (Fin m) ℝ) :
    cmap (A - B) = cmap A - cmap B := by
  ext i j
  simp [cmap, Matrix.sub_apply]

lemma cmap_smul {m : ℕ} (r : ℝ) (A : Matrix (Fin m) (Fin m) ℝ) :
    cmap (r • A) = ((r : ℂ)) • cmap A := by
  ext i j
  simp [cmap, Matrix.smul_apply]

lemma cmap_one {m : ℕ} : cmap (1 : Matrix (Fin m) (Fin m) ℝ) = 1 := by
  ext i j
  simp [cmap, Matrix.one_apply, apply_ite (fun x : ℝ => (x : ℂ))]

/-- A real positive semidefinite matrix is positive semidefinite over `ℂ`. -/
lemma cmap_posSemidef {m : ℕ} {P : Matrix (Fin m) (Fin m) ℝ} (hP : P.PosSemidef) :
    (cmap P).PosSemidef := by
  obtain ⟨B, rfl⟩ := Matrix.posSemidef_iff_eq_transpose_mul_self.mp hP
  have h : cmap (Bᴴ * B) = (cmap B)ᴴ * cmap B := by
    ext i j
    simp only [cmap, Matrix.map_apply, Matrix.mul_apply, Matrix.conjTranspose_apply,
      star_trivial, Complex.star_def, Complex.conj_ofReal]
    push_cast
    rfl
  rw [h]
  exact Matrix.posSemidef_conjTranspose_mul_self _

/-- The complexification of a real skew-symmetric matrix is skew-Hermitian. -/
lemma cmap_skew {m : ℕ} {S : Matrix (Fin m) (Fin m) ℝ} (hS : Sᵀ = -S) :
    (cmap S)ᴴ = -(cmap S) := by
  ext i j
  have h := congrFun (congrFun hS i) j
  simp only [Matrix.transpose_apply, Matrix.neg_apply] at h
  simp [cmap, Matrix.conjTranspose_apply, Matrix.map_apply, Matrix.neg_apply,
    Complex.star_def, Complex.conj_ofReal, h]

/-- Conjugating a complex quadratic form passes to the conjugate transpose. -/
lemma star_quadForm {m : ℕ} (M : Matrix (Fin m) (Fin m) ℂ) (v : Fin m → ℂ) :
    star (star v ⬝ᵥ M *ᵥ v) = star v ⬝ᵥ Mᴴ *ᵥ v := by
  rw [Matrix.star_dotProduct, star_star, Matrix.star_mulVec, ← Matrix.dotProduct_mulVec]

/-- Key stability fact behind the Hurwitz construction: for `P`, `Q` real
positive semidefinite and `S` real skew-symmetric, every complex eigenvalue of
`P * (-0.5 Q + S) - alph I` has real part at most `-alph`. -/
theorem submersion_eig_re_le {m : ℕ} (alph : ℝ) {P Q S : Matrix (Fin m) (Fin m) ℝ}
    (hP : P.PosSemidef) (hQ : Q.PosSemidef) (hS : Sᵀ = -S) {μ : ℂ}
    (hμ : isEigenvalue (P * ((-0.5 : ℝ) • Q + S) - alph • (1 : Matrix (Fin m) (Fin m) ℝ)) μ) :
    μ.re ≤ -alph := by
  obtain ⟨v, hv, heig⟩ := hμ
  have hPc : (cmap P).PosSemidef := cmap_posSemidef hP
  have hQc : (cmap Q).PosSemidef := cmap_posSemidef hQ
  have hSc : (cmap S)ᴴ = -(cmap S) := cmap_skew hS
  set Pc := cmap P
  set Qc := cmap Q
  set Sc := cmap S
  set Nc : Matrix (Fin m) (Fin m) ℂ := ((-0.5 : ℝ) : ℂ) • Qc + Sc with hNcdef
  set lam : ℂ := μ + (alph : ℂ) with hlamdef
  set w : Fin m → ℂ := Nc *ᵥ v with hwdef
  -- the eigen equation, complexified and shifted by `alph`
  have heq : Pc *ᵥ w = lam • v := by
    have h1 : cmap (P * ((-0.5 : ℝ) • Q + S) - alph • (1 : Matrix (Fin m) (Fin m) ℝ))
        = Pc * Nc - (alph : ℂ) • 1 := by
      rw [cmap_sub, cmap_mul, cmap_add, cmap_smul, cmap_smul, cmap_one]
    rw [h1, Matrix.sub_mulVec, Matrix.smul_mulVec_assoc, Matrix.one_mulVec] at heig
    have h2 : (Pc * Nc) *ᵥ v = μ • v + (alph : ℂ) • v := by
      rw [← heig]; abel
    rw [hwdef, Matrix.mulVec_mulVec, h2, hlamdef, add_smul]
  suffices hre : lam.re ≤ 0 by
    have hμre : lam.re = μ.re + alph := by simp [hlamdef]
    linarith
  by_cases hl0 : lam = 0
  · simp [hl0]
  -- quadratic forms
  set r : ℂ := star w ⬝ᵥ Pc *ᵥ w with hrdef
  have hr0 : 0 ≤ r := hPc.2 w
  have hNcH : Ncᴴ = ((-0.5 : ℝ) : ℂ) • Qc - Sc := by
    rw [hNcdef, Matrix.conjTranspose_add, Matrix.conjTranspose_smul, hSc, hQc.1,
      Complex.star_def, Complex.conj_ofReal, sub_eq_add_neg]
  set z : ℂ := star v ⬝ᵥ Ncᴴ *ᵥ v with hzdef
  have hwv : star w ⬝ᵥ v = z := by
    rw [hwdef, Matrix.star_mulVec, ← Matrix.dotProduct_mulVec]
  have hrz : r = lam * z := by
    rw [hrdef, heq, Matrix.dotProduct_smul, hwv, smul_eq_mul]
  -- the real part of `z` is nonpositive
  have hq0 : 0 ≤ star v ⬝ᵥ Qc *ᵥ v := hQc.2 v
  have hqre : 0 ≤ (star v ⬝ᵥ Qc *ᵥ v).re := (Complex.nonneg_iff.mp hq0).1
  have hsre : (star v ⬝ᵥ Sc *ᵥ v).re = 0 := by
    have hconj : star (star v ⬝ᵥ Sc *ᵥ v) = -(star v ⬝ᵥ Sc *ᵥ v) := by
      rw [star_quadForm, hSc, Matrix.neg_mulVec, Matrix.dotProduct_neg]
    have hre := congrArg Complex.re hconj
    simp only [Complex.star_def, Complex.conj_re, Complex.neg_re] at hre
    linarith
  have hzre : z.re ≤ 0 := by
    rw [hzdef, hNcH, Matrix.sub_mulVec, Matrix.smul_mulVec_assoc, Matrix.dotProduct_sub,
      Matrix.dotProduct_smul, smul_eq_mul]
    simp only [Complex.sub_re, Complex.mul_re, Complex.ofReal_re, Complex.ofReal_im, hsre,
      zero_mul, sub_zero]
    nlinarith [hqre]
  by_cases hz : z = 0
  · exfalso
    have hrzero : r = 0 := by rw [hrz, hz, mul_zero]
    have hPw : Pc *ᵥ w = 0 := (hPc.dotProduct_mulVec_zero_iff w).mp (by rw [← hrdef]; exact hrzero)
    rw [heq] at hPw
    rcases smul_eq_zero.mp hPw with h | h
    · exact hl0 h
    · exact hv h
  · have hlameq : lam = r * z⁻¹ := by
      rw [hrz, mul_assoc, mul_inv_cancel₀ hz, mul_one]
    have hrre : 0 ≤ r.re := (Complex.nonneg_iff.mp hr0).1
    have hrim : r.im = 0 := ((Complex.nonneg_iff.mp hr0).2).symm
    have hnsq : 0 < Complex.normSq z := Complex.normSq_pos.mpr hz
    have hdiv : z.re / Complex.normSq z ≤ 0 := div_nonpos_iff.mpr (Or.inr ⟨hzre, hnsq.le⟩)
    rw [hlameq, Complex.mul_re, Complex.inv_re, hrim, zero_mul, sub_zero]
    nlinarith [hrre, hdiv]

/-! ### List and small-matrix helper lemmas -/

lemma mem_zipWith3 {α β γ δ : Type} {f : α → β → γ → δ} {as : List α} {bs : List β}
    {cs : List γ} {d : δ} (hd : d ∈ zipWith3 f as bs cs) :
    ∃ a ∈ as, ∃ b ∈ bs, ∃ c ∈ cs, d = f a b c := by
  induction as generalizing bs cs with
  | nil => simp [zipWith3] at hd
  | cons a as ih =>
    cases bs with
    | nil => simp [zipWith3] at hd
    | cons b bs =>
      cases cs with
      | nil => simp [zipWith3] at hd
      | cons c cs =>
        rw [zipWith3] at hd
        rcases List.mem_cons.mp hd with h | h
        · exact ⟨a, List.mem_cons_self a as, b, List.mem_cons_self b bs,
            c, List.mem_cons_self c cs, h⟩
        · obtain ⟨a', ha', b', hb', c', hc', hd'⟩ := ih h
          exact ⟨a', List.mem_cons_of_mem _ ha', b', List.mem_cons_of_mem _ hb',
            c', List.mem_cons_of_mem _ hc', hd'⟩

/-- A real `1 × 1` matrix `[[c]]` has no eigenvalue other than `c`. -/
lemma isEigenvalue_one_dim {c : ℝ} {μ : ℂ} (h : isEigenvalue !![c] μ) : μ = (c : ℂ) := by
  obtain ⟨v, hv, hveq⟩ := h
  have hv0 : v 0 ≠ 0 := by
    intro h0
    apply hv
    funext i
    fin_cases i
    exact h0
  have h00 := congrFun hveq 0
  simp only [cmap, Matrix.mulVec, Matrix.map_apply, Matrix.dotProduct, Fin.sum_univ_one,
    Matrix.of_apply, Matrix.cons_val', Matrix.cons_val_zero, Matrix.cons_val_fin_one,
    Pi.smul_apply, smul_eq_mul] at h00
  exact (mul_right_cancel₀ hv0 h00).symm

/-- `c` is an eigenvalue of the real `1 × 1` matrix `[[c]]`. -/
lemma isEigenvalue_one_dim_self (c : ℝ) : isEigenvalue !![c] ((c : ℂ)) := by
  refine ⟨fun _ => 1, ?_, ?_⟩
  · intro h
    have h0 := congrFun h 0
    simp at h0
  · funext i
    simp [cmap, Matrix.mulVec, Matrix.dotProduct, Fin.sum_univ_one, Matrix.map_apply]

/-- Membership of a single `1 × 1` matrix, positive case. -/
lemma in_manifold_eigen_singleton {H : HurwitzInst} (c eps : ℝ)
    (hms : H.tensorial_size = []) (hc : c ≤ -H.alpha + eps) :
    in_manifold_eigen H ⟨[], 1, [!![c]]⟩ eps := by
  unfold in_manifold_eigen
  rw [if_neg (by simp [hms])]
  intro M hM μ hμ
  simp only [List.mem_singleton] at hM
  subst hM
  rw [isEigenvalue_one_dim hμ]
  simpa using hc

/-- Membership of a single `1 × 1` matrix, negative case. -/
lemma not_in_manifold_eigen_singleton {H : HurwitzInst} (c eps : ℝ)
    (hc : ¬ (c ≤ -H.alpha + eps)) :
    ¬ in_manifold_eigen H ⟨[], 1, [!![c]]⟩ eps := by
  unfold in_manifold_eigen
  by_cases hb : ([] : List ℕ) ≠ H.tensorial_size
  · rw [if_pos hb]
    exact not_false
  · rw [if_neg hb]
    intro hall
    exact hc (by simpa using hall !![c] (by simp) ((c : ℂ)) (isEigenvalue_one_dim_self c))

/-- A concrete valid instance (`n = 1`, empty batch shape, `alpha = 1`) used to
instantiate theorems with hypotheses at explicit inputs. -/
abbrev H₀ : HurwitzInst := ⟨1, [], 1⟩

/-! ### Claim theorems -/

/-- C1: for every valid Hurwitz instance and every unconstrained triple of
matching batch shape, the point produced by `forward` passes the instance's own
eigenvalue membership test, and so does every output of `sample` (for any choice
of the three drawn noise matrices): every eigenvalue of the produced matrix has
real part `≤ -alpha`, hence `≤ -alpha + eps` for the test's tolerance. -/
theorem C1_produced_points_pass_membership (H : HurwitzInst) (hα : 0 < H.alpha)
    (eps : ℝ) (heps : 0 ≤ eps) (f1 f2 f3 : Mat H.n → Mat H.n)
    (hf1 : ∀ X, (f1 X).PosSemidef) (hf2 : ∀ X, (f2 X).PosSemidef)
    (hf3 : ∀ X, (f3 X)ᵀ = -(f3 X)) :
    (∀ X1s X2s X3s : List (Mat H.n),
        in_manifold_eigen H (forwardB H f1 f2 f3 X1s X2s X3s) eps)
    ∧ ∀ Xps Xqs Xss : List (Mat H.n),
        in_manifold_eigen H (sampleB H Xps Xqs Xss) eps := by
  constructor
  · intro X1s X2s X3s
    unfold in_manifold_eigen forwardB
    rw [if_neg (by simp)]
    intro M hM μ hμ
    obtain ⟨a, _, b, _, c, _, hMf⟩ := mem_zipWith3 hM
    subst hMf
    have hle := submersion_eig_re_le H.alpha (hf2 b) (hf1 a) (hf3 c) (μ := μ) hμ
    linarith
  · intro Xps Xqs Xss
    unfold in_manifold_eigen sampleB
    rw [if_neg (by simp)]
    intro M hM μ hμ
    obtain ⟨a, _, b, _, c, _, hMf⟩ := mem_zipWith3 hM
    subst hMf
    have hPpsd : (a * aᵀ).PosSemidef := by
      have ht : aᵀ = aᴴ := by
        ext i j
        simp [Matrix.conjTranspose_apply]
      rw [ht]
      exact Matrix.posSemidef_self_mul_conjTranspose a
    have hQpsd : (b * bᵀ).PosSemidef := by
      have ht : bᵀ = bᴴ := by
        ext i j
        simp [Matrix.conjTranspose_apply]
      rw [ht]
      exact Matrix.posSemidef_self_mul_conjTranspose b
    have hSskew : (c - cᵀ)ᵀ = -(c - cᵀ) := by
      rw [Matrix.transpose_sub, Matrix.transpose_transpose, neg_sub]
    have hle := submersion_eig_re_le H.alpha hPpsd hQpsd hSskew (μ := μ) hμ
    linarith

/-- Witness for C1 at the concrete instance `H₀` with zero inputs. -/
theorem C1_produced_points_pass_membership_witness :
    in_manifold_eigen H₀ (forwardB H₀ (fun _ => 0) (fun _ => 0) (fun _ => 0) [0] [0] [0]) 0 :=
  (C1_produced_points_pass_membership H₀ (by norm_num [H₀]) 0 le_rfl _ _ _
    (fun _ => Matrix.PosSemidef.zero) (fun _ => Matrix.PosSemidef.zero)
    (fun _ => by simp)).1 [0] [0] [0]

/-- The submersion formula exactly as the spec writes it:
`P @ (-0.5 * Q + S) - alpha * I_n`, with the identity written as a diagonal
matrix and the coefficient written as `-(1/2)`. -/
noncomputable def submersion_spec (H : HurwitzInst) (Q P S : Mat H.n) : Mat H.n :=
  P * ((-(1 : ℝ) / 2) • Q + S) - Matrix.diagonal (fun _ => H.alpha)

/-- C2: `submersion(Q, P, S)` computes exactly `P @ (-0.5 Q + S) - alpha I_n`
(the `-0.5` coefficient and the subtraction of `alpha I` in that order), and
`forward(X1, X2, X3)` equals `submersion` applied to the `ProductManifold`
forward of `[X1, X2, X3]`. -/
theorem C2_submersion_formula (H : HurwitzInst) (Q P S X1 X2 X3 : Mat H.n)
    (f1 f2 f3 : Mat H.n → Mat H.n) :
    submersion H Q P S = submersion_spec H Q P S
    ∧ forward H f1 f2 f3 X1 X2 X3
        = submersion H (productForward3 f1 f2 f3 X1 X2 X3).1
            (productForward3 f1 f2 f3 X1 X2 X3).2.1
            (productForward3 f1 f2 f3 X1 X2 X3).2.2 := by
  constructor
  · unfold submersion submersion_spec
    have h05 : (-0.5 : ℝ) = -(1 : ℝ) / 2 := by norm_num
    rw [h05, ← Matrix.smul_one_eq_diagonal]
  · rfl

/-- C3: the exact round-trip identity of the inverse path: with
`Q = -(Aᵀ P + P A + 2 alpha P)` and `S = P A + 0.5 Q + alpha P` recovered from
`A` and an (invertible, as guaranteed by the `P ≽ epsilon I` constraint) solved
`P`, the identity `submersion(Q, P⁻¹, S) = A` holds exactly in exact
arithmetic, for any `A` on the manifold with empty `tensorial_size`. -/
theorem C3_roundtrip_exact (H : HurwitzInst) (A P : Mat H.n)
    (hts : H.tensorial_size = [])
    (hmem : in_manifold_eigen H ⟨[], H.n, [A]⟩ (1e-6)) (hP : IsUnit P.det) :
    submersion H (Qrec H A P) P⁻¹ (Srec H A P) = A := by
  simp only [submersion, Qrec, Srec]
  have hkey : (-0.5 : ℝ) • -(Aᵀ * P + P * A + (2 * H.alpha) • P)
      + (P * A + (0.5 : ℝ) • -(Aᵀ * P + P * A + (2 * H.alpha) • P) + H.alpha • P)
      = P * A + H.alpha • P := by
    module
  rw [hkey, mul_add, Matrix.mul_smul, ← mul_assoc, Matrix.nonsing_inv_mul P hP, one_mul]
  abel

/-- Witness for C3 at the concrete instance `H₀`, `A = [[-2]]`, `P = I`. -/
theorem C3_roundtrip_exact_witness :
    submersion H₀ (Qrec H₀ !![(-2 : ℝ)] 1) 1⁻¹ (Srec H₀ !![(-2 : ℝ)] 1) = !![(-2 : ℝ)] :=
  C3_roundtrip_exact H₀ !![(-2 : ℝ)] 1 rfl
    (in_manifold_eigen_singleton (-2) (1e-6) rfl (by norm_num [H₀]))
    (by simp)

/-- C4: `in_manifold_eigen(A, eps)` returns false whenever `A`'s batch shape
(all dimensions except the last two) disagrees with `tensorial_size`, and
otherwise holds exactly when every eigenvalue of every batch element has real
part `≤ -alpha + eps`; being a total function, it raises nothing on a shape
mismatch. -/
theorem C4_membership_shape_gate (H : HurwitzInst) (A : BTensor) (eps : ℝ) :
    (A.batch ≠ H.tensorial_size → ¬ in_manifold_eigen H A eps)
    ∧ (A.batch = H.tensorial_size →
        (in_manifold_eigen H A eps ↔
          ∀ M ∈ A.mats, ∀ μ : ℂ, isEigenvalue M μ → μ.re ≤ -H.alpha + eps)) := by
  constructor
  · intro hne
    unfold in_manifold_eigen
    rw [if_pos hne]
    exact not_false
  · intro heq
    unfold in_manifold_eigen
    rw [if_neg (by simp [heq])]

/-- Witness for C4: a batch-shape mismatch is rejected, and on a matching shape
the test is the eigenvalue condition. -/
theorem C4_membership_shape_gate_witness :
    (([2] : List ℕ) ≠ H₀.tensorial_size ∧ ¬ in_manifold_eigen H₀ ⟨[2], 1, []⟩ 5)
    ∧ (in_manifold_eigen H₀ ⟨[], 1, []⟩ 5 ↔
        ∀ M ∈ ([] : List (Matrix (Fin 1) (Fin 1) ℝ)), ∀ μ : ℂ,
          isEigenvalue M μ → μ.re ≤ -H₀.alpha + 5) :=
  ⟨⟨by simp [H₀], (C4_membership_shape_gate H₀ ⟨[2], 1, []⟩ 5).1 (by simp [H₀])⟩,
    (C4_membership_shape_gate H₀ ⟨[], 1, []⟩ 5).2 rfl⟩

/-- C5: with `P` symmetric (as the PSD cvxpy variable is) and the solved
Lyapunov constraint `Aᵀ P + P A + 2 alpha P ≼ -ε I` (with `ε ≥ 0`), the
recovered `Q = -(Aᵀ P + P A + 2 alpha P)` is symmetric and positive
semidefinite, the recovered `S = P A + 0.5 Q + alpha P` is skew-symmetric,
`submersion_inv` returns the triple `(Q, P⁻¹, S)` with `P` inverted, and
`right_inverse` delegates that triple to `ProductManifold.right_inverse`. -/
theorem C5_recovered_structure (H : HurwitzInst) (A P : Mat H.n) (ε : ℝ) (hε : 0 ≤ ε)
    (hPsym : Pᵀ = P)
    (hcon : (-(ε • (1 : Mat H.n)) - (Aᵀ * P + P * A + (2 * H.alpha) • P)).PosSemidef) :
    (Qrec H A P)ᵀ = Qrec H A P ∧ (Qrec H A P).PosSemidef
    ∧ (Srec H A P)ᵀ = -(Srec H A P)
    ∧ (∀ (slv : String → SDPProblem H.n → SolverOutcome H.n) (solver : String)
        (check : Bool),
        (check = true → in_manifold_eigen H ⟨[], H.n, [A]⟩ ε) →
        slv solver (hurwitzSDP H A ε) = ⟨"optimal", P⟩ →
        submersion_inv H slv A check ε solver
          = Except.ok (Qrec H A P, P⁻¹, Srec H A P))
    ∧ ∀ (slv : String → SDPProblem H.n → SolverOutcome H.n)
        (r1 r2 r3 : Mat H.n → Mat H.n) (check : Bool) (Q' P' S' : Mat H.n),
        submersion_inv H slv A check (1e-8) "MOSEK" = Except.ok (Q', P', S') →
        right_inverse H slv r1 r2 r3 A check
          = Except.ok (productRightInverse3 r1 r2 r3 Q' P' S') := by
  refine ⟨?_, ?_, ?_, ?_, ?_⟩
  · unfold Qrec
    rw [Matrix.transpose_neg, Matrix.transpose_add, Matrix.transpose_add,
      Matrix.transpose_mul, Matrix.transpose_mul, Matrix.transpose_smul,
      Matrix.transpose_transpose, hPsym]
    abel_nf
  · have hQform : Qrec H A P
        = (-(ε • (1 : Mat H.n)) - (Aᵀ * P + P * A + (2 * H.alpha) • P))
          + ε • (1 : Mat H.n) := by
      unfold Qrec
      abel
    rw [hQform]
    refine hcon.add ?_
    rw [Matrix.smul_one_eq_diagonal]
    exact Matrix.PosSemidef.diagonal (by intro i; exact hε)
  · have hSform : Srec H A P = (0.5 : ℝ) • (P * A - Aᵀ * P) := by
      unfold Srec Qrec
      module
    rw [hSform, Matrix.transpose_smul, Matrix.transpose_sub, Matrix.transpose_mul,
      Matrix.transpose_mul, Matrix.transpose_transpose, hPsym, ← smul_neg, neg_sub]
  · intro slv solver check hch hslv
    unfold submersion_inv
    rw [if_neg (by rintro ⟨h1, h2⟩; exact h2 (hch h1))]
    rw [hslv]
    simp
  · intro slv r1 r2 r3 check Q' P' S' hok
    unfold right_inverse
    rw [hok]

/-- Witness for C5 at `H₀`, `A = [[-1]]`, `P = I`, `ε = 0`: the solved
constraint matrix is `0` (positive semidefinite) and the recovered `Q` is
positive semidefinite. -/
theorem C5_recovered_structure_witness :
    (-((0 : ℝ) • (1 : Mat H₀.n)) - (!![(-1 : ℝ)]ᵀ * 1 + 1 * !![(-1 : ℝ)]
        + (2 * H₀.alpha) • 1)).PosSemidef
    ∧ (Qrec H₀ !![(-1 : ℝ)] 1).PosSemidef := by
  have hm : -((0 : ℝ) • (1 : Mat H₀.n)) - (!![(-1 : ℝ)]ᵀ * 1 + 1 * !![(-1 : ℝ)]
      + (2 * H₀.alpha) • 1) = 0 := by
    ext i j
    fin_cases i
    fin_cases j
    norm_num [H₀, Matrix.mul_apply, Matrix.one_apply, Fin.sum_univ_one, Matrix.vecHead,
      Matrix.transpose_apply, Matrix.cons_val_zero, Matrix.of_apply]
  exact ⟨hm ▸ Matrix.PosSemidef.zero,
    (C5_recovered_structure H₀ !![(-1 : ℝ)] 1 0 le_rfl (by simp)
      (hm ▸ Matrix.PosSemidef.zero)).2.1⟩

/-- C6: on a matrix failing the eigenvalue membership test at the pre-check
tolerance (`epsilon = 1e-8` inside `right_inverse`), `right_inverse` with
`check_in_manifold = true` fails with `InManifoldError` — whatever the solver
does, i.e. before any solving; and with `check_in_manifold = false` no
membership check happens, so neither `submersion_inv` nor `right_inverse` can
produce `InManifoldError`. -/
theorem C6_membership_check_gate (H : HurwitzInst)
    (slv : String → SDPProblem H.n → SolverOutcome H.n)
    (r1 r2 r3 : Mat H.n → Mat H.n) (A : Mat H.n) :
    (¬ in_manifold_eigen H ⟨[], H.n, [A]⟩ (1e-8) →
      right_inverse H slv r1 r2 r3 A true = Except.error GeoError.inManifoldError)
    ∧ (∀ ε solver, submersion_inv H slv A false ε solver
        ≠ Except.error GeoError.inManifoldError)
    ∧ right_inverse H slv r1 r2 r3 A false ≠ Except.error GeoError.inManifoldError := by
  have hsub : ∀ ε solver, submersion_inv H slv A false ε solver
      ≠ Except.error GeoError.inManifoldError := by
    intro ε solver
    unfold submersion_inv
    rw [if_neg (by simp)]
    by_cases hst : (slv solver (hurwitzSDP H A ε)).status = "infeasible"
        ∨ (slv solver (hurwitzSDP H A ε)).status = "unbounded"
    · rw [if_pos hst]
      simp
    · rw [if_neg hst]
      simp
  refine ⟨?_, hsub, ?_⟩
  · intro hnm
    have h1 : submersion_inv H slv A true (1e-8) "MOSEK"
        = Except.error GeoError.inManifoldError := by
      unfold submersion_inv
      rw [if_pos ⟨rfl, hnm⟩]
    unfold right_inverse
    rw [h1]
  · unfold right_inverse
    cases hc : submersion_inv H slv A false (1e-8) "MOSEK" with
    | error e =>
        have := hsub (1e-8) "MOSEK"
        rw [hc] at this
        simpa using this
    | ok t => simp

/-- Witness for C6: the matrix `[[0]]` is not Hurwitz for `alpha = 1`, so
`right_inverse` with checking raises `InManifoldError`. -/
theorem C6_membership_check_gate_witness :
    ¬ in_manifold_eigen H₀ ⟨[], 1, [!![(0 : ℝ)]]⟩ (1e-8)
    ∧ right_inverse H₀ (fun _ _ => ⟨"optimal", 1⟩) id id id !![(0 : ℝ)] true
        = Except.error GeoError.inManifoldError := by
  have hnm : ¬ in_manifold_eigen H₀ ⟨[], 1, [!![(0 : ℝ)]]⟩ (1e-8) :=
    not_in_manifold_eigen_singleton 0 (1e-8) (by norm_num [H₀])
  exact ⟨hnm,
    (C6_membership_check_gate H₀ (fun _ _ => ⟨"optimal", 1⟩) id id id !![(0 : ℝ)]).1 hnm⟩

/-- `parse_size` on a shape ending in two explicit dimensions. -/
lemma parse_size_append (ts : List ℕ) (n k : ℕ) :
    parse_size (ts ++ [n, k])
      = if n ≠ k then Except.error GeoError.nonSquareError else Except.ok (n, ts) := by
  have hlen : (ts ++ [n, k]).length = ts.length + 2 := by simp
  have hg2 : (ts ++ [n, k]).getD ((ts ++ [n, k]).length - 2) 0 = n := by
    rw [show (ts ++ [n, k]).length - 2 = ts.length by omega]
    simp [List.getD, List.getElem?_append_right, List.getElem_append_right]
  have hg1 : (ts ++ [n, k]).getD ((ts ++ [n, k]).length - 1) 0 = k := by
    rw [show (ts ++ [n, k]).length - 1 = ts.length + 1 by omega]
    simp [List.getD, List.getElem?_append_right, List.getElem_append_right]
  have htk : (ts ++ [n, k]).take ((ts ++ [n, k]).length - 2) = ts := by
    rw [show (ts ++ [n, k]).length - 2 = ts.length by omega]
    exact List.take_left ts [n, k]
  simp only [parse_size]
  rw [if_neg (by omega), hg2, hg1, htk]

/-- C7: construction contract: a size with fewer than 2 dimensions raises
`VectorError`; a size whose last two dimensions differ raises `NonSquareError`;
`alpha ≤ 0` on a valid square size raises `ValueError`; a square size of at
least 2 dimensions with `alpha > 0` constructs the instance successfully. -/
theorem C7_construction_contract (size ts : List ℕ) (n k : ℕ) (alpha : ℝ) :
    (size.length < 2 → hurwitzInit size alpha = Except.error GeoError.vectorError)
    ∧ (n ≠ k → hurwitzInit (ts ++ [n, k]) alpha = Except.error GeoError.nonSquareError)
    ∧ (alpha ≤ 0 → hurwitzInit (ts ++ [n, n]) alpha = Except.error GeoError.valueError)
    ∧ (0 < alpha → hurwitzInit (ts ++ [n, n]) alpha = Except.ok ⟨n, ts, alpha⟩) := by
  refine ⟨?_, ?_, ?_, ?_⟩
  · intro hlt
    unfold hurwitzInit parse_size
    rw [if_pos hlt]
  · intro hnk
    unfold hurwitzInit
    rw [parse_size_append, if_pos hnk]
  · intro hle
    unfold hurwitzInit
    rw [parse_size_append, if_neg (by simp)]
    show (if alpha ≤ 0 then Except.error GeoError.valueError
      else Except.ok (⟨n, ts, alpha⟩ : HurwitzInst)) = Except.error GeoError.valueError
    rw [if_pos hle]
  · intro hpos
    unfold hurwitzInit
    rw [parse_size_append, if_neg (by simp)]
    show (if alpha ≤ 0 then Except.error GeoError.valueError
      else Except.ok (⟨n, ts, alpha⟩ : HurwitzInst)) = Except.ok ⟨n, ts, alpha⟩
    rw [if_neg (not_le.mpr hpos)]

/-- Witness for C7 on the spec's concrete scenarios. -/
theorem C7_construction_contract_witness :
    hurwitzInit [5] 1 = Except.error GeoError.vectorError
    ∧ hurwitzInit [3, 6] 2 = Except.error GeoError.nonSquareError
    ∧ hurwitzInit [4, 4] (-2) = Except.error GeoError.valueError
    ∧ hurwitzInit [4, 4] (1e-4) = Except.ok ⟨4, [], 1e-4⟩ :=
  ⟨(C7_construction_contract [5] [] 0 0 1).1 (by norm_num),
   (C7_construction_contract [5] [] 3 6 2).2.1 (by norm_num),
   (C7_construction_contract [5] [] 4 0 (-2)).2.2.1 (by norm_num),
   (C7_construction_contract [5] [] 4 0 (1e-4)).2.2.2 (by norm_num)⟩

/-- C8: the semidefinite solve is a pure feasibility problem — the objective is
`Minimize(0)` — over a symmetric PSD variable `P` whose constraints impose the
quadratic-form margins `xᵀ(AᵀP + PA + 2 alpha P)x ≤ -ε xᵀx` and
`ε xᵀx ≤ xᵀPx` for every vector `x`; whenever the solver reports the problem
"infeasible" or "unbounded", `submersion_inv` raises `ValueError` at once —
there is no retry and no fallback. -/
theorem C8_sdp_feasibility (H : HurwitzInst) (A : Mat H.n) (ε : ℝ) :
    (hurwitzSDP H A ε).minimizeObjective = 0
    ∧ (∀ P, (hurwitzSDP H A ε).feasibleSet P → ∀ x : Fin H.n → ℝ,
        x ⬝ᵥ ((Aᵀ * P + P * A + (2 * H.alpha) • P) *ᵥ x) ≤ -ε * (x ⬝ᵥ x)
        ∧ ε * (x ⬝ᵥ x) ≤ x ⬝ᵥ (P *ᵥ x))
    ∧ ∀ (slv : String → SDPProblem H.n → SolverOutcome H.n) (solver : String)
        (check : Bool),
        (check = true → in_manifold_eigen H ⟨[], H.n, [A]⟩ ε) →
        ((slv solver (hurwitzSDP H A ε)).status = "infeasible"
          ∨ (slv solver (hurwitzSDP H A ε)).status = "unbounded") →
        submersion_inv H slv A check ε solver = Except.error GeoError.valueError := by
  refine ⟨rfl, ?_, ?_⟩
  · rintro P ⟨hsym, hpsd, hcon1, hcon2⟩ x
    constructor
    · have h1 := hcon1.2 x
      simp only [star_trivial] at h1
      rw [Matrix.sub_mulVec, Matrix.neg_mulVec, Matrix.smul_mulVec_assoc, Matrix.one_mulVec,
        Matrix.dotProduct_sub, Matrix.dotProduct_neg, Matrix.dotProduct_smul,
        smul_eq_mul] at h1
      linarith
    · have h2 := hcon2.2 x
      simp only [star_trivial] at h2
      rw [Matrix.sub_mulVec, Matrix.smul_mulVec_assoc, Matrix.one_mulVec,
        Matrix.dotProduct_sub, Matrix.dotProduct_smul, smul_eq_mul] at h2
      linarith
  · intro slv solver check hch hst
    unfold submersion_inv
    rw [if_neg (by rintro ⟨h1, h2⟩; exact h2 (hch h1))]
    rcases hst with h | h <;> simp [h]

/-- Witness for C8: a solver reporting infeasibility makes `submersion_inv`
fail with `ValueError`. -/
theorem C8_sdp_feasibility_witness :
    (hurwitzSDP H₀ !![(0 : ℝ)] 0).minimizeObjective = 0
    ∧ submersion_inv H₀ (fun _ _ => ⟨"infeasible", 1⟩) !![(0 : ℝ)] false 0 "SCS"
        = Except.error GeoError.valueError :=
  ⟨(C8_sdp_feasibility H₀ !![(0 : ℝ)] 0).1,
   (C8_sdp_feasibility H₀ !![(0 : ℝ)] 0).2.2 (fun _ _ => ⟨"infeasible", 1⟩) "SCS" false
     (by simp) (Or.inl rfl)⟩

/-- A solver capability that would succeed on the backend named "OTHER" but
reports infeasibility on every other backend. -/
def slvA : String → SDPProblem H₀.n → SolverOutcome H₀.n :=
  fun name _ => if name = "OTHER" then ⟨"optimal", 1⟩ else ⟨"infeasible", 1⟩

/-- A solver capability that reports infeasibility on every backend. -/
def slvB : String → SDPProblem H₀.n → SolverOutcome H₀.n :=
  fun _ _ => ⟨"infeasible", 1⟩

/-- C9 counterexample: the two solver capabilities `slvA` and `slvB` agree on
"MOSEK" but differ on "OTHER"; a caller invoking `right_inverse` gets identical
results under both — so the caller cannot select the solver backend (nor the
epsilon margin) through `right_inverse` — whereas calling the convex solve
`submersion_inv` directly with solver "OTHER" distinguishes them. -/
theorem C9_counterexample :
    slvA "OTHER" (hurwitzSDP H₀ !![(0 : ℝ)] (1e-8))
      ≠ slvB "OTHER" (hurwitzSDP H₀ !![(0 : ℝ)] (1e-8))
    ∧ right_inverse H₀ slvA id id id !![(0 : ℝ)] false
        = right_inverse H₀ slvB id id id !![(0 : ℝ)] false
    ∧ submersion_inv H₀ slvA !![(0 : ℝ)] false (1e-8) "OTHER"
        ≠ submersion_inv H₀ slvB !![(0 : ℝ)] false (1e-8) "OTHER" := by
  refine ⟨?_, ?_, ?_⟩
  · intro h
    simp [slvA, slvB] at h
  · unfold right_inverse submersion_inv
    rw [if_neg (by simp)]
    simp [slvA, slvB]
  · unfold submersion_inv
    rw [if_neg (by simp)]
    simp [slvA, slvB]

/-- C9 (amended): `submersion_inv` — the convex solve — does accept a solver
name string and an epsilon margin, but `right_inverse` does not forward them:
it always invokes the solve with `epsilon = 1e-8` and `solver = "MOSEK"`, so a
caller of `right_inverse` cannot choose them. -/
theorem C9_amended_hardwired_defaults (H : HurwitzInst)
    (slv : String → SDPProblem H.n → SolverOutcome H.n)
    (r1 r2 r3 : Mat H.n → Mat H.n) (A : Mat H.n) (check : Bool) :
    right_inverse H slv r1 r2 r3 A check
      = match submersion_inv H slv A check (1e-8) "MOSEK" with
        | Except.error e => Except.error e
        | Except.ok QPS =>
            Except.ok (productRightInverse3 r1 r2 r3 QPS.1 QPS.2.1 QPS.2.2) :=
  rfl

/-- C10: the membership pre-check inside `right_inverse` runs at
`epsilon = 1e-8` (the `submersion_inv` default), stricter than the standalone
`in_manifold_eigen` default `eps = 1e-6`: the matrix `[[-1 + 5e-7]]` (with
`alpha = 1`) passes the standalone test at the default tolerance, yet
`right_inverse` with checking enabled raises `InManifoldError` — for every
solver capability and sub-manifold right inverses. -/
theorem C10_tolerance_mismatch :
    in_manifold_eigen H₀ ⟨[], 1, [!![(-1 : ℝ) + 5e-7]]⟩ (1e-6)
    ∧ ∀ (slv : String → SDPProblem H₀.n → SolverOutcome H₀.n)
        (r1 r2 r3 : Mat H₀.n → Mat H₀.n),
        right_inverse H₀ slv r1 r2 r3 !![(-1 : ℝ) + 5e-7] true
          = Except.error GeoError.inManifoldError := by
  constructor
  · exact in_manifold_eigen_singleton _ _ rfl (by norm_num [H₀])
  · intro slv r1 r2 r3
    have hnm : ¬ in_manifold_eigen H₀ ⟨[], 1, [!![(-1 : ℝ) + 5e-7]]⟩ (1e-8) :=
      not_in_manifold_eigen_singleton _ _ (by norm_num [H₀])
    have h1 : submersion_inv H₀ slv !![(-1 : ℝ) + 5e-7] true (1e-8) "MOSEK"
        = Except.error GeoError.inManifoldError := by
      unfold submersion_inv
      rw [if_pos ⟨rfl, hnm⟩]
    unfold right_inverse
    rw [h1]

end Geotorch
